import Mathlib

/-!
Verification of the Russell 2000 ticker updater (`update_russell2000.py`).

This file gives a shallow embedding of the script's pure logic and proves
the specification claims about it.

Modelling conventions:
* Python strings are modelled as `List Char`.  Character classification
  (`str.isalpha`, `str.isupper`, `str.upper`, `str.strip`) is modelled with
  ASCII semantics (the data domain of the script is ASCII ticker symbols):
  a character is alphabetic iff it is in `A`-`Z` or `a`-`z`, cased iff
  alphabetic, and uppercasing maps `a`-`z` to `A`-`Z` by subtracting 32
  from the code point, leaving every other character unchanged.
* The network boundary is modelled by passing the fetched/parsed data as an
  explicit argument: `Option` is `none` when the request (or JSON parse)
  raised, in which case the code's `except` arm is taken.
* HTML parsing by BeautifulSoup is outside the script's own logic; the
  relevant extraction results (anchor texts, hrefs, per-page ticker lists)
  are the inputs of the embedded functions.
* File-system effects are reified: `mainRun` returns a `RunOutcome` that
  says whether the output file is overwritten (and with which bytes),
  or left untouched.

All functions are computable, and every claim theorem is stated over these
definitions.
-/

/-- ASCII model of Python whitespace (the characters `str.strip` removes). -/
def pyIsSpace (c : Char) : Bool :=
  c = ' ' || c = '\t' || c = '\n' || c = '\r' || c = '\x0b' || c = '\x0c'

/-- Python `str.strip()`: drop leading and trailing whitespace. -/
def pyStrip (s : List Char) : List Char :=
  ((s.dropWhile pyIsSpace).reverse.dropWhile pyIsSpace).reverse

/-- `c` is an ASCII uppercase letter `A`-`Z` (codes 65-90). -/
def isUpperAZ (c : Char) : Bool :=
  65 ≤ c.toNat && c.toNat ≤ 90

/-- `c` is an ASCII lowercase letter `a`-`z` (codes 97-122). -/
def isLowerAZ (c : Char) : Bool :=
  97 ≤ c.toNat && c.toNat ≤ 122

/-- `c` is an ASCII letter (the ASCII model of Python `str.isalpha` per char). -/
def isAlphaAZ (c : Char) : Bool := isUpperAZ c || isLowerAZ c

/-- Python `str.upper()` on one character (ASCII model). -/
def pyUpperChar (c : Char) : Char :=
  if isLowerAZ c then Char.ofNat (c.toNat - 32) else c

/-- Python `str.upper()` (ASCII model). -/
def pyUpper (s : List Char) : List Char := s.map pyUpperChar

/-- Python `str.isalpha()`: nonempty and every character alphabetic. -/
def pyIsAlpha (s : List Char) : Bool := !s.isEmpty && s.all isAlphaAZ

/-- Python `str.isupper()`: at least one cased character and no cased
character is lowercase (in the ASCII model, cased = alphabetic). -/
def pyIsUpper (s : List Char) : Bool :=
  s.any isAlphaAZ && s.all (fun c => !isLowerAZ c)

/-- `is_valid_ticker` from the script:
strip whitespace; reject empty; remove hyphens; accept iff the remainder
has length 1-5, is alphabetic and is uppercase. -/
def is_valid_ticker (t : List Char) : Bool :=
  let t2 := pyStrip t
  if t2.isEmpty then false
  else
    let clean := t2.filter (fun c => c ≠ '-')
    decide (1 ≤ clean.length) && decide (clean.length ≤ 5) &&
      pyIsAlpha clean && pyIsUpper clean

/-- Lexicographic comparison of strings by code point — the order Python's
`sorted` uses on `str`. -/
def lexLe : List Char → List Char → Bool
  | [], _ => true
  | _ :: _, [] => false
  | a :: as, b :: bs =>
    if a.toNat < b.toNat then true
    else if b.toNat < a.toNat then false
    else lexLe as bs

/-- Propositional form of `lexLe`. -/
def LexLe (a b : List Char) : Prop := lexLe a b = true

instance : DecidableRel LexLe :=
  fun a b => inferInstanceAs (Decidable (lexLe a b = true))

instance : IsTotal (List Char) LexLe := by
  constructor
  intro a b
  induction a generalizing b with
  | nil => exact Or.inl rfl
  | cons x xs ih =>
    cases b with
    | nil => exact Or.inr rfl
    | cons y ys =>
      show lexLe (x :: xs) (y :: ys) = true ∨ lexLe (y :: ys) (x :: xs) = true
      simp only [lexLe]
      rcases Nat.lt_trichotomy x.toNat y.toNat with h | h | h
      · left; rw [if_pos h]
      · rcases ih ys with h2 | h2
        · left; rw [if_neg (by omega), if_neg (by omega)]; exact h2
        · right; rw [if_neg (by omega), if_neg (by omega)]; exact h2
      · right; rw [if_pos h]

instance : IsTrans (List Char) LexLe := by
  constructor
  intro a b c hab hbc
  induction a generalizing b c with
  | nil => exact rfl
  | cons x xs ih =>
    cases b with
    | nil => exact absurd hab (by simp [LexLe, lexLe])
    | cons y ys =>
      cases c with
      | nil => exact absurd hbc (by simp [LexLe, lexLe])
      | cons z zs =>
        show lexLe (x :: xs) (z :: zs) = true
        have hab2 : lexLe (x :: xs) (y :: ys) = true := hab
        have hbc2 : lexLe (y :: ys) (z :: zs) = true := hbc
        simp only [lexLe] at hab2 hbc2 ⊢
        by_cases h1 : x.toNat < y.toNat
        · by_cases h2 : y.toNat < z.toNat
          · rw [if_pos (by omega)]
          · rw [if_pos h1] at hab2
            by_cases h3 : z.toNat < y.toNat
            · rw [if_neg h2, if_pos h3] at hbc2; exact absurd hbc2 (by simp)
            · rw [if_pos (by omega)]
        · by_cases h4 : y.toNat < x.toNat
          · rw [if_neg h1, if_pos h4] at hab2; exact absurd hab2 (by simp)
          · rw [if_neg h1, if_neg h4] at hab2
            by_cases h2 : y.toNat < z.toNat
            · rw [if_pos (by omega)]
            · by_cases h3 : z.toNat < y.toNat
              · rw [if_neg h2, if_pos h3] at hbc2; exact absurd hbc2 (by simp)
              · rw [if_neg h2, if_neg h3] at hbc2
                rw [if_neg (by omega), if_neg (by omega)]
                exact ih ys zs hab2 hbc2

instance : IsAntisymm (List Char) LexLe := by
  constructor
  intro a b hab hba
  induction a generalizing b with
  | nil =>
    cases b with
    | nil => rfl
    | cons y ys => exact absurd hba (by simp [LexLe, lexLe])
  | cons x xs ih =>
    cases b with
    | nil => exact absurd hab (by simp [LexLe, lexLe])
    | cons y ys =>
      have hab2 : lexLe (x :: xs) (y :: ys) = true := hab
      have hba2 : lexLe (y :: ys) (x :: xs) = true := hba
      simp only [lexLe] at hab2 hba2
      by_cases h1 : x.toNat < y.toNat
      · rw [if_neg (by omega), if_pos h1] at hba2; exact absurd hba2 (by simp)
      · by_cases h2 : y.toNat < x.toNat
        · rw [if_neg h1, if_pos h2] at hab2; exact absurd hab2 (by simp)
        · rw [if_neg h1, if_neg h2] at hab2
          rw [if_neg h2, if_neg h1] at hba2
          have hx : x = y := by
            have : x.toNat = y.toNat := by omega
            have hv : x = Char.ofNat x.toNat := (Char.ofNat_toNat x).symm
            rw [hv, this, Char.ofNat_toNat]
          rw [hx, ih ys hab2 hba2]

/-- Python `list(dict.fromkeys(l))` — deduplicate keeping the first
occurrence of each element — via an accumulator of already-seen elements. -/
def dedupAux (seen : List (List Char)) : List (List Char) → List (List Char)
  | [] => []
  | a :: rest =>
    if a ∈ seen then dedupAux seen rest else a :: dedupAux (a :: seen) rest

/-- Python `list(dict.fromkeys(l))`: order-preserving deduplication. -/
def dedupKeepFirst (l : List (List Char)) : List (List Char) :=
  dedupAux [] l

/-- JSON values: the shape of data `_extract_tickers_from_json` walks. -/
inductive JsonVal where
  | str (s : List Char)
  | num (n : Int)
  | bool (b : Bool)
  | null
  | arr (items : List JsonVal)
  | obj (fields : List (List Char × JsonVal))

/-- Python `key in obj` / `obj[key]` on a JSON object, modelled as lookup
in an association list. -/
def dictGet (fields : List (List Char × JsonVal)) (k : List Char) : Option JsonVal :=
  match fields with
  | [] => none
  | (k2, v) :: rest => if k2 = k then some v else dictGet rest k

/-- One candidate-key probe of `_extract_tickers_from_json`: if the key is
present with a string value that passes `is_valid_ticker`, yield that value
uppercased. -/
def keyHit (fields : List (List Char × JsonVal)) (k : List Char) : List (List Char) :=
  match dictGet fields k with
  | some (.str s) => if is_valid_ticker s then [pyUpper s] else []
  | _ => []

/-- The candidate-key pass over one object, keys probed in the code's order
`"s", "symbol", "ticker", "Symbol", "Ticker"`. -/
def extractKeyHits (fields : List (List Char × JsonVal)) : List (List Char) :=
  keyHit fields "s".toList ++ keyHit fields "symbol".toList ++
    keyHit fields "ticker".toList ++ keyHit fields "Symbol".toList ++
    keyHit fields "Ticker".toList

mutual
/-- `_extract_tickers_from_json(obj, depth)`: return `[]` past the depth
guard; on a dict, probe the candidate keys then recurse into all values;
on a list, recurse into all items; else return `[]`. -/
def _extract_tickers_from_json (v : JsonVal) (depth : Nat) : List (List Char) :=
  if 10 < depth then []
  else
    match v with
    | .obj fields => extractKeyHits fields ++ extractObjVals fields depth
    | .arr items => extractArrItems items depth
    | _ => []

/-- The `for val in obj.values()` recursion of `_extract_tickers_from_json`. -/
def extractObjVals (fields : List (List Char × JsonVal)) (depth : Nat) : List (List Char) :=
  match fields with
  | [] => []
  | (_, v) :: rest => _extract_tickers_from_json v (depth + 1) ++ extractObjVals rest depth

/-- The `for item in obj` recursion of `_extract_tickers_from_json`. -/
def extractArrItems (items : List JsonVal) (depth : Nat) : List (List Char) :=
  match items with
  | [] => []
  | v :: rest => _extract_tickers_from_json v (depth + 1) ++ extractArrItems rest depth
end

/-- The data extracted from one stockanalysis.com response: `nextData` is
the parsed `__NEXT_DATA__` JSON when the script tag was found and its body
parsed, `anchors` the texts of the `<a href="/stocks/...">` elements of the
page. -/
structure SAResponse where
  nextData : Option JsonVal
  anchors : List (List Char)

/-- The `__NEXT_DATA__` path of `fetch_from_stockanalysis`: run the JSON
tree extractor on the embedded payload (no deduplication). -/
def saJsonSymbols (r : SAResponse) : List (List Char) :=
  match r.nextData with
  | some d => _extract_tickers_from_json d 0
  | none => []

/-- The HTML-anchor fallback path of `fetch_from_stockanalysis`: strip and
uppercase each anchor text, keep the valid ones, deduplicate preserving
order. -/
def saHtmlSymbols (r : SAResponse) : List (List Char) :=
  dedupKeepFirst ((r.anchors.map (fun a => pyUpper (pyStrip a))).filter is_valid_ticker)

/-- `fetch_from_stockanalysis`: `response = none` models a raised request /
HTTP error / JSON parse error, absorbed by the strategy's `except` arm. -/
def fetch_from_stockanalysis (response : Option SAResponse) : List (List Char) :=
  match response with
  | none => []
  | some r =>
    let jsonTickers := saJsonSymbols r
    if 500 < jsonTickers.length then jsonTickers
    else
      let htmlTickers := saHtmlSymbols r
      if 500 < htmlTickers.length then htmlTickers else []

/-- The pagination loop of `fetch_from_finviz` over pages
`pageNum, pageNum+1, ...` with `fuel` iterations left.  `pages k` is the
parse result of page `k`: `none` when that page's request raised (the page
is skipped), `some l` when it parsed to ticker list `l`; an empty `l`
stops the loop. -/
def finvizLoopAux (pages : Nat → Option (List (List Char))) (pageNum : Nat)
    (acc : List (List Char)) : Nat → List (List Char)
  | 0 => acc
  | fuel + 1 =>
    match pages pageNum with
    | none => finvizLoopAux pages (pageNum + 1) acc fuel
    | some [] => acc
    | some l => finvizLoopAux pages (pageNum + 1) (acc ++ l) fuel

/-- `fetch_from_finviz`: `page1 = none` models an exception while fetching
or parsing page 1 (outer `except`, returns `[]`); `page1 = some (total, t1)`
gives the total-row-count hint scanned from page 1 (default 2000) and page
1's parsed tickers.  Pages `2 .. maxPage` are then fetched, the result is
deduplicated preserving order and returned iff it exceeds 500 symbols. -/
def fetch_from_finviz (page1 : Option (Nat × List (List Char)))
    (pages : Nat → Option (List (List Char))) : List (List Char) :=
  match page1 with
  | none => []
  | some (total, t1) =>
    if t1.isEmpty then []
    else
      let rowsPerPage := t1.length
      let maxPage := min ((total - 1) / rowsPerPage + 1) 110
      let tickers := finvizLoopAux pages 2 t1 (maxPage + 1 - 2)
      let deduped := dedupKeepFirst tickers
      if 500 < deduped.length then deduped else []

/-- `re.match` of `t=([A-Z]+)` at the start of a string: the maximal run of
uppercase letters directly after a leading `t=`, if nonempty. -/
def tEqMatch : List Char → Option (List Char)
  | 't' :: '=' :: rest =>
    (let run := rest.takeWhile isUpperAZ
     if run.isEmpty then none else some run)
  | _ => none

/-- `re.search(r"t=([A-Z]+)", href).group(1)`: the capture at the first
offset where the pattern matches, `none` if it matches nowhere. -/
def reSearchT : List Char → Option (List Char)
  | [] => none
  | c :: rest =>
    match tEqMatch (c :: rest) with
    | some run => some run
    | none => reSearchT rest

/-- The secondary-method loop body of `_parse_finviz_page`: extract the
`t=` query capture from one href and keep it when it validates. -/
def quoteHrefTicker (h : List Char) : Option (List Char) :=
  match reSearchT h with
  | some m => if is_valid_ticker m then some m else none
  | none => none

/-- `_parse_finviz_page`, with the BeautifulSoup query results as inputs:
`primaryTexts` = the texts of anchors carrying class
`screener-link-primary` (primary method), `quoteHrefs` = the hrefs of
anchors whose href matches `quote\.ashx\?t=` (secondary method). -/
def _parse_finviz_page (primaryTexts : List (List Char))
    (quoteHrefs : List (List Char)) : List (List Char) :=
  let tickers := (primaryTexts.map (fun a => pyUpper (pyStrip a))).filter is_valid_ticker
  if !tickers.isEmpty then tickers
  else dedupKeepFirst (quoteHrefs.filterMap quoteHrefTicker)

/-- `load_existing`: `file = none` models a missing output file,
`some lines` its text split into lines.  Lines are stripped and kept when
nonempty and valid. -/
def load_existing (file : Option (List (List Char))) : List (List Char) :=
  match file with
  | none => []
  | some lines =>
    (lines.map pyStrip).filter (fun t => !t.isEmpty && is_valid_ticker t)

/-- The static ETF denylist `exclude` in `main`. -/
def EXCLUDE : List (List Char) :=
  ["SPY".toList, "QQQ".toList, "IWM".toList, "DIA".toList, "RSP".toList,
   "GLD".toList, "SLV".toList, "TLT".toList, "HYG".toList, "VXX".toList,
   "IEMG".toList, "EFA".toList, "AGG".toList, "BND".toList, "VEA".toList,
   "VWO".toList, "IEFA".toList, "ITOT".toList, "IVV".toList, "VOO".toList]

/-- The finalize step of `main`:
`sorted(set(t for t in tickers if is_valid_ticker(t) and t not in exclude))`. -/
def finalizeSymbols (tickers : List (List Char)) : List (List Char) :=
  List.insertionSort LexLe
    (dedupKeepFirst (tickers.filter (fun t => is_valid_ticker t && !decide (t ∈ EXCLUDE))))

/-- Python `"\n".join`. -/
def joinNL : List (List Char) → List Char
  | [] => []
  | [x] => x
  | x :: xs => x ++ '\n' :: joinNL xs

/-- The bytes written by the finalize step:
`"\n".join(tickers) + "\n"` over the finalized symbols. -/
def finalizeOutput (tickers : List (List Char)) : List Char :=
  joinNL (finalizeSymbols tickers) ++ ['\n']

/-- The file-system effect of one run of `main`: the output file is either
overwritten with `content`, or deliberately kept (fallback path), or left
alone because there is nothing to write. -/
inductive RunOutcome where
  | wrote (content : List Char)
  | keptExisting
  | nothing
deriving DecidableEq

/-- `main`, with the network boundary and the existing file contents passed
in explicitly.  Mirrors the script line by line: try strategy A; if below
500, try strategy B; if still below 500 and the existing file has valid
tickers, return without touching the file; if the collected list is empty,
return without writing; otherwise finalize and overwrite the output file. -/
def mainRun (sa : Option SAResponse) (page1 : Option (Nat × List (List Char)))
    (pages : Nat → Option (List (List Char)))
    (file : Option (List (List Char))) : RunOutcome :=
  let t0 := fetch_from_stockanalysis sa
  let t1 := if t0.length < 500 then fetch_from_finviz page1 pages else t0
  if t1.length < 500 && !(load_existing file).isEmpty then RunOutcome.keptExisting
  else if t1.isEmpty then RunOutcome.nothing
  else RunOutcome.wrote (finalizeOutput t1)

/-- An object nested `n` objects deep under the key `"symbol"`, with the
string `"AAPL"` at the innermost level (input for the depth-guard claim). -/
def nestedObj : Nat → JsonVal
  | 0 => JsonVal.str "AAPL".toList
  | n + 1 => JsonVal.obj [("symbol".toList, nestedObj n)]

/-- The nested input of claim C3:
`{"data": [{"symbol": "ABCD"}, {"ticker": "wxyz"}]}`. -/
def c3Input : JsonVal :=
  JsonVal.obj [("data".toList, JsonVal.arr
    [JsonVal.obj [("symbol".toList, JsonVal.str "ABCD".toList)],
     JsonVal.obj [("ticker".toList, JsonVal.str "wxyz".toList)]])]

/-- A stockanalysis response whose `__NEXT_DATA__` payload is an array of
501 copies of `{"s": "AAPL"}` and whose page has no stock anchors
(counterexample input for claim C5). -/
def saDupResponse : SAResponse :=
  ⟨some (JsonVal.arr (List.replicate 501 (JsonVal.obj [("s".toList, JsonVal.str "AAPL".toList)]))), []⟩

/-- Concatenation of the parsed tickers of `count` successive pages
starting at page `start`; a page whose request raised contributes `[]`. -/
def pagesCat (pages : Nat → Option (List (List Char))) : Nat → Nat → List (List Char)
  | _, 0 => []
  | start, count + 1 => ((pages start).getD []) ++ pagesCat pages (start + 1) count

-- ═══════════════════════════════ THEOREMS ═══════════════════════════════

/-- `Char.ofNat` on a scalar value below the surrogate range round-trips. -/
theorem charToNat_ofNat (n : Nat) (h : n < 55296) : (Char.ofNat n).toNat = n := by
  unfold Char.ofNat
  rw [dif_pos (Or.inl h)]
  rfl

/-- Uppercasing a lowercase ASCII letter changes it. -/
theorem pyUpperChar_ne_of_lower (c : Char) (h : isLowerAZ c = true) :
    pyUpperChar c ≠ c := by
  have hb : 97 ≤ c.toNat ∧ c.toNat ≤ 122 := by
    simpa [isLowerAZ] using h
  intro hc
  have h1 : (pyUpperChar c).toNat = c.toNat - 32 := by
    rw [pyUpperChar, if_pos h]
    exact charToNat_ofNat _ (by omega)
  rw [hc] at h1
  omega

/-- `pyUpperChar` fixes exactly the non-lowercase characters. -/
theorem pyUpperChar_eq_self_iff (c : Char) :
    pyUpperChar c = c ↔ isLowerAZ c = false := by
  constructor
  · intro h
    by_contra hne
    have hl : isLowerAZ c = true := by
      cases hh : isLowerAZ c
      · exact absurd hh hne
      · rfl
    exact pyUpperChar_ne_of_lower c hl h
  · intro h
    rw [pyUpperChar, if_neg (by simp [h])]

/-- A string equals its own uppercase form iff it has no lowercase letter. -/
theorem pyUpper_eq_self_iff (l : List Char) :
    pyUpper l = l ↔ ∀ c ∈ l, isLowerAZ c = false := by
  induction l with
  | nil => simp [pyUpper]
  | cons a t ih =>
    simp only [pyUpper, List.map_cons, List.cons.injEq, List.mem_cons]
    constructor
    · rintro ⟨h1, h2⟩ c hc
      rcases hc with rfl | hc
      · exact (pyUpperChar_eq_self_iff c).mp h1
      · exact (ih.mp h2) c hc
    · intro h
      refine ⟨(pyUpperChar_eq_self_iff a).mpr (h a (Or.inl rfl)), ih.mpr ?_⟩
      intro c hc
      exact h c (Or.inr hc)

/-- **C1.** `is_valid_ticker s` is `true` iff, after stripping leading and
trailing whitespace and removing all hyphens, the remainder has length
between 1 and 5, consists only of alphabetic characters, and equals its own
uppercase form.  (The embedded validator is a total function into `Bool`,
so it is pure and never raises.) -/
theorem C1_is_valid_ticker_spec (s : List Char) :
    is_valid_ticker s = true ↔
      (1 ≤ ((pyStrip s).filter (fun c => c ≠ '-')).length ∧
       ((pyStrip s).filter (fun c => c ≠ '-')).length ≤ 5 ∧
       (∀ c ∈ (pyStrip s).filter (fun c => c ≠ '-'), isAlphaAZ c = true) ∧
       pyUpper ((pyStrip s).filter (fun c => c ≠ '-')) =
         (pyStrip s).filter (fun c => c ≠ '-')) := by
  rw [is_valid_ticker]
  by_cases h : (pyStrip s).isEmpty
  · have hnil : pyStrip s = [] := by simpa [List.isEmpty_iff] using h
    simp [h, hnil]
  · simp only [h, if_false, Bool.ite_eq_true_distrib]
    set clean := (pyStrip s).filter (fun c => c ≠ '-') with hclean
    simp only [Bool.and_eq_true, decide_eq_true_eq, pyIsAlpha, pyIsUpper,
      Bool.not_eq_true', List.all_eq_true, List.any_eq_true,
      Bool.not_eq_eq_eq_not, Bool.not_true]
    constructor
    · rintro ⟨⟨⟨hlen1, hlen5⟩, _, halpha⟩, _, hnolow⟩
      refine ⟨hlen1, hlen5, halpha, ?_⟩
      exact (pyUpper_eq_self_iff clean).mpr hnolow
    · rintro ⟨hlen1, hlen5, halpha, hupper⟩
      have hnolow := (pyUpper_eq_self_iff clean).mp hupper
      have hne : clean ≠ [] := by
        intro hnil
        rw [hnil] at hlen1
        simp at hlen1
      refine ⟨⟨⟨hlen1, hlen5⟩, ?_, halpha⟩, ?_, hnolow⟩
      · simp [List.isEmpty_iff, hne]
      · rcases List.exists_mem_of_ne_nil clean hne with ⟨c, hc⟩
        exact ⟨c, hc, halpha c hc⟩

/-- Membership in the deduplication accumulator pass. -/
theorem mem_dedupAux (a : List Char) (l : List (List Char)) :
    ∀ seen, a ∈ dedupAux seen l ↔ a ∈ l ∧ a ∉ seen := by
  induction l with
  | nil => intro seen; simp [dedupAux]
  | cons b rest ih =>
    intro seen
    simp only [dedupAux]
    by_cases hb : b ∈ seen
    · rw [if_pos hb, ih seen]
      constructor
      · rintro ⟨h1, h2⟩
        exact ⟨List.mem_cons_of_mem _ h1, h2⟩
      · rintro ⟨h1, h2⟩
        rcases List.mem_cons.mp h1 with rfl | h1
        · exact absurd hb h2
        · exact ⟨h1, h2⟩
    · rw [if_neg hb]
      constructor
      · intro h
        rcases List.mem_cons.mp h with rfl | h
        · exact ⟨List.mem_cons_self _ _, hb⟩
        · have h2 := (ih (b :: seen)).mp h
          exact ⟨List.mem_cons_of_mem _ h2.1,
            fun hs => h2.2 (List.mem_cons_of_mem _ hs)⟩
      · rintro ⟨h1, h2⟩
        rcases List.mem_cons.mp h1 with rfl | h1
        · exact List.mem_cons_self _ _
        · by_cases hab : a = b
          · subst hab; exact List.mem_cons_self _ _
          · refine List.mem_cons_of_mem _ ((ih (b :: seen)).mpr ⟨h1, ?_⟩)
            simp [hab, h2]

/-- Order-preserving deduplication preserves membership. -/
theorem mem_dedupKeepFirst (a : List Char) (l : List (List Char)) :
    a ∈ dedupKeepFirst l ↔ a ∈ l := by
  rw [dedupKeepFirst, mem_dedupAux]
  simp

/-- The deduplication pass yields a duplicate-free list. -/
theorem nodup_dedupAux (l : List (List Char)) :
    ∀ seen, (dedupAux seen l).Nodup := by
  induction l with
  | nil => intro seen; simp [dedupAux]
  | cons b rest ih =>
    intro seen
    simp only [dedupAux]
    by_cases hb : b ∈ seen
    · rw [if_pos hb]; exact ih seen
    · rw [if_neg hb]
      refine List.nodup_cons.mpr ⟨?_, ih (b :: seen)⟩
      intro hmem
      exact ((mem_dedupAux b rest (b :: seen)).mp hmem).2 (List.mem_cons_self _ _)

/-- `dedupKeepFirst` yields a duplicate-free list. -/
theorem nodup_dedupKeepFirst (l : List (List Char)) : (dedupKeepFirst l).Nodup :=
  nodup_dedupAux l []

/-- Deduplicating a duplicate-free list is the identity. -/
theorem dedupAux_eq_self (l : List (List Char)) (hl : l.Nodup) :
    ∀ seen, (∀ a ∈ l, a ∉ seen) → dedupAux seen l = l := by
  induction l with
  | nil => intro seen _; rfl
  | cons b rest ih =>
    intro seen hs
    simp only [dedupAux]
    rw [if_neg (hs b (List.mem_cons_self _ _))]
    congr 1
    refine ih (List.nodup_cons.mp hl).2 (b :: seen) ?_
    intro a ha
    have hab : a ≠ b := by
      intro h
      exact (List.nodup_cons.mp hl).1 (h ▸ ha)
    simp [hab, hs a (List.mem_cons_of_mem _ ha)]

/-- `dedupKeepFirst` is the identity on duplicate-free lists. -/
theorem dedupKeepFirst_eq_self (l : List (List Char)) (hl : l.Nodup) :
    dedupKeepFirst l = l :=
  dedupAux_eq_self l hl [] (by simp)

/-- The finalized symbol list is sorted. -/
theorem finalizeSymbols_sorted (raw : List (List Char)) :
    (finalizeSymbols raw).Sorted LexLe :=
  List.sorted_insertionSort LexLe _

/-- The finalized symbol list has no duplicates. -/
theorem finalizeSymbols_nodup (raw : List (List Char)) :
    (finalizeSymbols raw).Nodup :=
  (List.perm_insertionSort LexLe _).nodup_iff.mpr (nodup_dedupKeepFirst _)

/-- A symbol is in the finalized list iff it was collected, passes the
validator, and is not denylisted. -/
theorem finalizeSymbols_mem (raw : List (List Char)) (s : List Char) :
    s ∈ finalizeSymbols raw ↔
      s ∈ raw ∧ is_valid_ticker s = true ∧ s ∉ EXCLUDE := by
  rw [finalizeSymbols, (List.perm_insertionSort LexLe _).mem_iff,
    mem_dedupKeepFirst, List.mem_filter]
  simp [and_assoc]

/-- Finalizing an already-finalized list reproduces it. -/
theorem finalizeSymbols_idem (raw : List (List Char)) :
    finalizeSymbols (finalizeSymbols raw) = finalizeSymbols raw := by
  have hmem : ∀ s ∈ finalizeSymbols raw,
      (is_valid_ticker s && !decide (s ∈ EXCLUDE)) = true := by
    intro s hs
    have h := (finalizeSymbols_mem raw s).mp hs
    simp [h.2.1, h.2.2]
  conv_lhs => rw [finalizeSymbols]
  rw [List.filter_eq_self.mpr hmem,
    dedupKeepFirst_eq_self _ (finalizeSymbols_nodup raw)]
  exact (finalizeSymbols_sorted raw).insertionSort_eq

/-- **C2.** The finalize step writes exactly the collected symbols that
pass the validator and avoid the static ETF denylist, with set-semantics
deduplication, sorted lexicographically ascending, newline-joined with one
trailing newline; on the raw list `["AAPL", "AAPL", "SPY", "MSFT"]` (with
`"SPY"` denylisted) the written bytes are exactly `"AAPL\nMSFT\n"`. -/
theorem C2_finalize_spec (raw : List (List Char)) :
    (finalizeSymbols raw).Sorted LexLe ∧
    (finalizeSymbols raw).Nodup ∧
    (∀ s, s ∈ finalizeSymbols raw ↔
      s ∈ raw ∧ is_valid_ticker s = true ∧ s ∉ EXCLUDE) ∧
    finalizeOutput raw = joinNL (finalizeSymbols raw) ++ ['\n'] ∧
    finalizeOutput ["AAPL".toList, "AAPL".toList, "SPY".toList, "MSFT".toList] =
      "AAPL\nMSFT\n".toList :=
  ⟨finalizeSymbols_sorted raw, finalizeSymbols_nodup raw,
   finalizeSymbols_mem raw, rfl, by decide⟩

/-- **C9.** The pipeline is a deterministic function of the upstream
responses, and the finalize normalization is idempotent: applied to an
already-finalized list it reproduces that list (hence two runs over the
same fixed responses write byte-identical files). -/
theorem C9_idempotent_deterministic (sa : Option SAResponse)
    (page1 : Option (Nat × List (List Char)))
    (pages : Nat → Option (List (List Char)))
    (file : Option (List (List Char))) (raw : List (List Char)) :
    mainRun sa page1 pages file = mainRun sa page1 pages file ∧
    finalizeSymbols (finalizeSymbols raw) = finalizeSymbols raw ∧
    finalizeOutput (finalizeSymbols raw) = finalizeOutput raw :=
  ⟨rfl, finalizeSymbols_idem raw,
   by rw [finalizeOutput, finalizeOutput, finalizeSymbols_idem raw]⟩

/-- The extractor yields nothing on a bare string node. -/
theorem extract_str (s : List Char) (d : Nat) :
    _extract_tickers_from_json (JsonVal.str s) d = [] := by
  simp [_extract_tickers_from_json]

/-- **C3 counterexample.** On
`{"data": [{"symbol": "ABCD"}, {"ticker": "wxyz"}]}` the extractor returns
exactly `["ABCD"]`: `"WXYZ"` is not in the result, contradicting the claim
that the value is uppercased before validation and both are returned. -/
theorem C3_counterexample :
    _extract_tickers_from_json c3Input 0 = ["ABCD".toList] ∧
    "WXYZ".toList ∉ _extract_tickers_from_json c3Input 0 := by
  constructor
  · decide
  · decide

/-- **C3 (amended).** The extractor validates the raw candidate string
value first and only then uppercases it: a candidate under key `"ticker"`
is collected iff the raw value already passes the validator (so lowercase
`"wxyz"` is rejected), and on the C3 input the result is exactly
`["ABCD"]`. -/
theorem C3_amended :
    (∀ (s : List Char) (d : Nat), d ≤ 10 →
      _extract_tickers_from_json
        (JsonVal.obj [("ticker".toList, JsonVal.str s)]) d =
        if is_valid_ticker s then [pyUpper s] else []) ∧
    _extract_tickers_from_json c3Input 0 = ["ABCD".toList] := by
  constructor
  · intro s d hd
    simp only [_extract_tickers_from_json]
    rw [if_neg (by omega)]
    simp [extractKeyHits, keyHit, dictGet, extractObjVals, extract_str]
  · decide

/-- Witness for C3 (amended): the lowercase value `"wxyz"` under the
candidate key `"ticker"` is rejected by validate-before-uppercase. -/
theorem C3_amended_witness :
    _extract_tickers_from_json
      (JsonVal.obj [("ticker".toList, JsonVal.str "wxyz".toList)]) 0 = [] := by
  have h := C3_amended.1 "wxyz".toList 0 (by decide)
  rw [h]
  decide

/-- **C4.** The extractor is total (it is a function in this embedding),
any node at depth greater than the cap 10 contributes nothing, and a
structure nested 15 objects deep yields `[]` (the branch beyond the cap is
silently dropped) while a structure nested within the cap still yields its
symbol. -/
theorem C4_depth_guard :
    (∀ (v : JsonVal) (d : Nat), 10 < d → _extract_tickers_from_json v d = []) ∧
    _extract_tickers_from_json (nestedObj 15) 0 = [] ∧
    _extract_tickers_from_json (nestedObj 8) 0 = ["AAPL".toList] := by
  refine ⟨?_, by decide, by decide⟩
  intro v d h
  rw [_extract_tickers_from_json.eq_def, if_pos h]

/-- Witness for C4: a node at depth 11 contributes nothing. -/
theorem C4_depth_guard_witness :
    _extract_tickers_from_json JsonVal.null 11 = [] :=
  C4_depth_guard.1 JsonVal.null 11 (by decide)

set_option maxRecDepth 8000 in
/-- **C5 counterexample.** A fetched page whose `__NEXT_DATA__` is 501
copies of `{"s": "AAPL"}` yields exactly one distinct valid symbol from
the JSON path and none from the HTML path — fewer than 500 distinct from
both — yet the strategy returns the 501-element list, not `[]`: the JSON
path is counted with multiplicity, before any deduplication. -/
theorem C5_counterexample :
    (dedupKeepFirst (saJsonSymbols saDupResponse)).length < 500 ∧
    (saHtmlSymbols saDupResponse).length < 500 ∧
    fetch_from_stockanalysis (some saDupResponse) ≠ [] := by
  refine ⟨by decide, by decide, by decide⟩

/-- **C5 (amended).** Strategy A returns `[]` whenever the embedded-JSON
path yields at most 500 symbols *counted with multiplicity* and the
HTML-anchor fallback yields at most 500 distinct valid symbols; and any
exception during the strategy (modelled by `none`) yields `[]` — the
strategy never raises past its boundary. -/
theorem C5_amended :
    (∀ r : SAResponse,
      (saJsonSymbols r).length ≤ 500 →
      (saHtmlSymbols r).length ≤ 500 →
      fetch_from_stockanalysis (some r) = []) ∧
    fetch_from_stockanalysis none = [] := by
  refine ⟨?_, rfl⟩
  intro r h1 h2
  simp only [fetch_from_stockanalysis]
  rw [if_neg (by omega), if_neg (by omega)]

/-- Witness for C5 (amended): a response with no payload and no anchors
makes the strategy return `[]`. -/
theorem C5_amended_witness :
    fetch_from_stockanalysis (some ⟨none, []⟩) = [] :=
  C5_amended.1 ⟨none, []⟩ (by decide) (by decide)

/-- If page `k` parses to zero symbols and every page from `start` up to
`k` parses to a nonempty list, the pagination loop stops at page `k` and
returns the accumulator extended by the pages before `k`. -/
theorem finvizLoopAux_stop (pages : Nat → Option (List (List Char))) (k : Nat)
    (hk : pages k = some []) :
    ∀ (fuel start : Nat) (acc : List (List Char)),
      start ≤ k → k < start + fuel →
      (∀ j, start ≤ j → j < k → ∃ l, pages j = some l ∧ l ≠ []) →
      finvizLoopAux pages start acc fuel =
        acc ++ pagesCat pages start (k - start) := by
  intro fuel
  induction fuel with
  | zero => intro start acc h1 h2 _; omega
  | succ n ih =>
    intro start acc h1 h2 hj
    by_cases hsk : start = k
    · subst hsk
      simp only [finvizLoopAux, hk]
      simp [Nat.sub_self, pagesCat]
    · have hlt : start < k := by omega
      obtain ⟨l, hl, hlne⟩ := hj start (le_refl _) hlt
      cases l with
      | nil => exact absurd rfl hlne
      | cons x xs =>
        simp only [finvizLoopAux, hl]
        have hrec := ih (start + 1) (acc ++ x :: xs) (by omega) (by omega)
          (fun j hja hjb => hj j (by omega) hjb)
        rw [hrec]
        have hms : k - start = (k - (start + 1)) + 1 := by omega
        rw [hms]
        simp only [pagesCat, hl, Option.getD_some]
        rw [List.append_assoc]

/-- **C6.** In strategy B, a page-1 parse of zero symbols aborts before
pagination with the empty result; and when a later page `k` (within the
page cap) parses to zero symbols after pages `2 .. k-1` each parsed to a
nonempty list, the loop stops at page `k` and the deduplicated cumulative
result of page 1 and pages `2 .. k-1` is returned iff it exceeds the
500-symbol threshold, else the strategy returns `[]`. -/
theorem C6_finviz_pagination :
    (∀ (total : Nat) (pages : Nat → Option (List (List Char))),
      fetch_from_finviz (some (total, [])) pages = []) ∧
    (∀ (total : Nat) (t1 : List (List Char))
      (pages : Nat → Option (List (List Char))) (k : Nat),
      t1 ≠ [] →
      2 ≤ k → k ≤ min ((total - 1) / t1.length + 1) 110 →
      pages k = some [] →
      (∀ j, 2 ≤ j → j < k → ∃ l, pages j = some l ∧ l ≠ []) →
      fetch_from_finviz (some (total, t1)) pages =
        (if 500 < (dedupKeepFirst (t1 ++ pagesCat pages 2 (k - 2))).length
         then dedupKeepFirst (t1 ++ pagesCat pages 2 (k - 2)) else [])) := by
  constructor
  · intro total pages
    simp [fetch_from_finviz]
  · intro total t1 pages k ht1 hk2 hkmax hk hj
    simp only [fetch_from_finviz]
    rw [if_neg (by simp [List.isEmpty_iff, ht1])]
    rw [finvizLoopAux_stop pages k hk
      (min ((total - 1) / t1.length + 1) 110 + 1 - 2) 2 t1 hk2 (by omega) hj]

/-- Witness for C6: page 2 parses to zero symbols after a one-symbol page
1; the cumulative single-symbol result is below the threshold, so the
strategy returns `[]`. -/
theorem C6_finviz_pagination_witness :
    fetch_from_finviz (some (100, ["AAA".toList])) (fun _ => some []) = [] := by
  have h := C6_finviz_pagination.2 100 ["AAA".toList] (fun _ => some []) 2
    (by decide) (by decide) (by decide) rfl
    (fun j h1 h2 => absurd h2 (by omega))
  rw [h]
  decide

/-- Every symbol the secondary-method loop body yields is valid. -/
theorem quoteHrefTicker_valid (h s : List Char)
    (hs : quoteHrefTicker h = some s) : is_valid_ticker s = true := by
  rw [quoteHrefTicker] at hs
  cases hr : reSearchT h with
  | none => rw [hr] at hs; simp at hs
  | some m =>
    rw [hr] at hs
    simp only [] at hs
    by_cases hv : is_valid_ticker m = true
    · rw [if_pos hv] at hs
      cases hs
      exact hv
    · rw [if_neg hv] at hs
      simp at hs

/-- **C7 counterexample.** Two valid anchors with the same text under the
primary marker-class method are returned as-is, with the duplicate — the
primary method's result is not deduplicated. -/
theorem C7_counterexample :
    _parse_finviz_page ["AAPL".toList, "AAPL".toList] [] =
      ["AAPL".toList, "AAPL".toList] ∧
    ¬(_parse_finviz_page ["AAPL".toList, "AAPL".toList] []).Nodup := by
  constructor
  · decide
  · decide

/-- **C7 (amended).** Every symbol `_parse_finviz_page` returns passes the
validator (both methods), and the result of the secondary quote-link
method — taken when the primary marker-class method yields nothing — is
deduplicated preserving first-seen order; the primary method's list is
returned without deduplication. -/
theorem C7_amended (primaryTexts quoteHrefs : List (List Char)) :
    (∀ s ∈ _parse_finviz_page primaryTexts quoteHrefs,
      is_valid_ticker s = true) ∧
    ((primaryTexts.map (fun a => pyUpper (pyStrip a))).filter is_valid_ticker = [] →
      (_parse_finviz_page primaryTexts quoteHrefs).Nodup) := by
  simp only [_parse_finviz_page]
  by_cases hp : (primaryTexts.map (fun a => pyUpper (pyStrip a))).filter is_valid_ticker = []
  · rw [hp]
    simp only [List.isEmpty_nil, Bool.not_true, Bool.false_eq_true, if_false]
    constructor
    · intro s hs
      rw [mem_dedupKeepFirst, List.mem_filterMap] at hs
      obtain ⟨a, _, hfa⟩ := hs
      exact quoteHrefTicker_valid a s hfa
    · intro _
      exact nodup_dedupKeepFirst _
  · rw [if_pos (by simp [List.isEmpty_iff, hp])]
    constructor
    · intro s hs
      exact (List.mem_filter.mp hs).2
    · intro h
      exact absurd h hp

/-- Witness for C7 (amended): with an empty primary method, a symbol
extracted from a quote link is valid and the result is duplicate-free. -/
theorem C7_amended_witness :
    is_valid_ticker "MSFT".toList = true ∧
    (_parse_finviz_page [] ["quote.ashx?t=MSFT&p=d".toList]).Nodup :=
  ⟨(C7_amended [] ["quote.ashx?t=MSFT&p=d".toList]).1 "MSFT".toList (by decide),
   (C7_amended [] ["quote.ashx?t=MSFT&p=d".toList]).2 (by decide)⟩

/-- Strategy B either fails with `[]` or returns a list of more than 500
symbols — it never returns a nonempty list at or below the threshold. -/
theorem fetch_from_finviz_all_or_nothing (page1 : Option (Nat × List (List Char)))
    (pages : Nat → Option (List (List Char))) :
    fetch_from_finviz page1 pages = [] ∨
      500 < (fetch_from_finviz page1 pages).length := by
  cases page1 with
  | none => exact Or.inl rfl
  | some p =>
    obtain ⟨total, t1⟩ := p
    simp only [fetch_from_finviz]
    by_cases h1 : t1.isEmpty
    · rw [if_pos h1]
      exact Or.inl rfl
    · rw [if_neg h1]
      by_cases h2 : 500 < (dedupKeepFirst (finvizLoopAux pages 2 t1
          (min ((total - 1) / t1.length + 1) 110 + 1 - 2))).length
      · rw [if_pos h2]
        exact Or.inr h2
      · rw [if_neg h2]
        exact Or.inl rfl

/-- **C8.** When both live strategies come back with fewer than 500
symbols, the run never writes the output file (so an existing file is
byte-identical after the run); when the existing file holds at least one
valid ticker the run ends in the explicit keep-existing no-op. -/
theorem C8_preserves_on_double_failure (sa : Option SAResponse)
    (page1 : Option (Nat × List (List Char)))
    (pages : Nat → Option (List (List Char)))
    (file : Option (List (List Char)))
    (h1 : (fetch_from_stockanalysis sa).length < 500)
    (h2 : (fetch_from_finviz page1 pages).length < 500) :
    (∀ c, mainRun sa page1 pages file ≠ RunOutcome.wrote c) ∧
    (load_existing file ≠ [] →
      mainRun sa page1 pages file = RunOutcome.keptExisting) := by
  have hfv : fetch_from_finviz page1 pages = [] := by
    rcases fetch_from_finviz_all_or_nothing page1 pages with h | h
    · exact h
    · omega
  simp only [mainRun]
  rw [if_pos h1, hfv]
  constructor
  · intro c
    by_cases hex : (load_existing file).isEmpty
    · rw [if_neg (by simp [hex]), if_pos (by simp)]
      simp
    · rw [if_pos (by simp [hex])]
      simp
  · intro hex
    rw [if_pos (by simp [List.isEmpty_iff, hex])]

/-- Witness for C8: both strategies raise (yielding fewer than 500
symbols) while the existing file holds one valid ticker; the run keeps the
existing file. -/
theorem C8_preserves_witness :
    mainRun none none (fun _ => none) (some ["AAPL".toList]) =
      RunOutcome.keptExisting :=
  (C8_preserves_on_double_failure none none (fun _ => none)
    (some ["AAPL".toList]) (by decide) (by decide)).2 (by decide)

/-- **C10.** The candidate-key check of the JSON extractor is not
first-match-only: when an object binds both `"s"` and `"symbol"` to valid
ticker strings, both values are collected (in key order, ahead of anything
else), so one object can contribute several symbols — duplicates included
when two keys hold the same value. -/
theorem C10_collects_every_candidate_key (fields : List (List Char × JsonVal))
    (d : Nat) (s1 s2 : List Char) (hd : d ≤ 10)
    (h1 : dictGet fields "s".toList = some (JsonVal.str s1))
    (hv1 : is_valid_ticker s1 = true)
    (h2 : dictGet fields "symbol".toList = some (JsonVal.str s2))
    (hv2 : is_valid_ticker s2 = true) :
    ∃ rest, _extract_tickers_from_json (JsonVal.obj fields) d =
      pyUpper s1 :: pyUpper s2 :: rest := by
  refine ⟨keyHit fields "ticker".toList ++ keyHit fields "Symbol".toList ++
    keyHit fields "Ticker".toList ++ extractObjVals fields d, ?_⟩
  rw [_extract_tickers_from_json.eq_def, if_neg (by omega)]
  simp only [extractKeyHits]
  rw [show keyHit fields "s".toList = [pyUpper s1] by
        rw [keyHit, h1]
        simp [hv1],
      show keyHit fields "symbol".toList = [pyUpper s2] by
        rw [keyHit, h2]
        simp [hv2]]
  simp [List.append_assoc]

/-- Witness for C10: an object with `"s"` and `"symbol"` both bound to
`"AAPL"` contributes the value twice. -/
theorem C10_collects_witness :
    ∃ rest, _extract_tickers_from_json
      (JsonVal.obj [("s".toList, JsonVal.str "AAPL".toList),
                    ("symbol".toList, JsonVal.str "AAPL".toList)]) 0 =
      pyUpper "AAPL".toList :: pyUpper "AAPL".toList :: rest :=
  C10_collects_every_candidate_key _ 0 "AAPL".toList "AAPL".toList
    (by decide) rfl (by decide) rfl (by decide)
